import Mathlib

/-!
Verification of the monitor-arrangement tool
(`dot_config/sway/scripts/executable_workspace-monitor-gui.py`).

The Python program is shallowly embedded: the config-file text is modelled
as a list of lines, each line a `List Char`; Python `int` strings are
modelled by `pInt`; the discovered-monitor dictionary is modelled as a list
of `MonitorInfo` with last-wins lookup by name, mirroring
`{m.name: m for m in get_sway_outputs()}`.
-/

namespace Swaymon

/-! ## Character-level utilities modelling Python string operations -/

/-- Python `str.strip()` on a line (ASCII whitespace, which is all the
characters the program ever writes). -/
def pyStrip (l : List Char) : List Char :=
  ((l.dropWhile Char.isWhitespace).reverse.dropWhile Char.isWhitespace).reverse

/-- Python `str.split(sep)` for a single-character separator: always returns
at least one part, empty parts included. -/
def splitOnChar (sep : Char) : List Char → List (List Char)
  | [] => [[]]
  | c :: rest =>
    match splitOnChar sep rest with
    | [] => [[c]]
    | h :: t => if c = sep then [] :: h :: t else (c :: h) :: t

/-- Python `str.lower()` (ASCII case folding suffices for this program). -/
def pyLower (l : List Char) : List Char := l.map Char.toLower

def digitVal (c : Char) : Nat := c.toNat - '0'.toNat

def digitsVal (l : List Char) : Nat :=
  l.foldl (fun acc c => 10 * acc + digitVal c) 0

/-- Removes the underscores Python's `int` accepts: an underscore is legal
only when it sits between two digits. The head of the input is already
known to be a digit when this is called. -/
def deUnderscore : List Char → Option (List Char)
  | [] => some []
  | c :: rest =>
      if c = '_' then
        match rest with
        | [] => none
        | c2 :: rest2 =>
            if c2.isDigit then deUnderscore (c2 :: rest2) else none
      else if c.isDigit then (deUnderscore rest).map (fun l => c :: l)
      else none

/-- Digit-string parsing as Python `int` does after sign handling: nonempty,
leading digit, underscores only between digits. -/
def parseDigits (l : List Char) : Option Nat :=
  match l with
  | [] => none
  | c :: _ => if c.isDigit then (deUnderscore l).map digitsVal else none

/-- Python `int(s)` on a string: strip whitespace, optional sign, digits.
A stripped string never starts with whitespace, so the `' '` default of
`headD` occurs only for the empty string, where `parseDigits` fails as
Python's `int("")` does. -/
def pInt (l : List Char) : Option Int :=
  let s := pyStrip l
  if s.headD ' ' = '+' then (parseDigits s.tail).map (fun n => (n : Int))
  else if s.headD ' ' = '-' then (parseDigits s.tail).map (fun n => -(n : Int))
  else (parseDigits s).map (fun n => (n : Int))

/-! ## Decimal rendering, modelling Python `str` of an `int` (used by the
f-string in `write_config`) -/

/-- Fuel-driven decimal digits of a natural number; `fuel > n` suffices. -/
def natCharsAux : Nat → Nat → List Char
  | 0, _ => []
  | fuel + 1, n =>
      if n < 10 then [Nat.digitChar n]
      else natCharsAux fuel (n / 10) ++ [Nat.digitChar (n % 10)]

def natChars (n : Nat) : List Char := natCharsAux (n + 1) n

def intChars (x : Int) : List Char :=
  if x < 0 then '-' :: natChars x.natAbs else natChars x.toNat

/-! ## The data model -/

/-- Persisted placement of one output, `MonitorConfig` in the source. -/
structure MonitorConfig where
  name : String
  x : Int := 0
  y : Int := 0
  is_primary : Bool := false
deriving DecidableEq, Repr

/-- Hardware-reported identity and geometry, `MonitorInfo` in the source.
The scale factor is modelled as a rational number. -/
structure MonitorInfo where
  name : String
  width : Int
  height : Int
  scale : Rat
  active : Bool
  make : String := ""
  model : String := ""
deriving DecidableEq, Repr

/-- Truncation toward zero of the exact quotient `a / b` (0 for `b = 0`,
where Python would raise `ZeroDivisionError`; no claim involves a zero
scale). -/
def intTruncDiv (a b : Int) : Int :=
  if b = 0 then 0
  else if (0 ≤ a) = (0 ≤ b) then ((a.natAbs / b.natAbs : Nat) : Int)
  else -(((a.natAbs / b.natAbs : Nat) : Int))

/-- `MonitorInfo.scaled_width`, `int(self.width / self.scale)`: as exact
arithmetic, `width / scale = width * scale.den / scale.num`, truncated
toward zero as Python `int()` does. -/
def scaled_width (m : MonitorInfo) : Int :=
  intTruncDiv (m.width * (m.scale.den : Int)) m.scale.num

/-- `MonitorInfo.scaled_height`: `int(self.height / self.scale)`. -/
def scaled_height (m : MonitorInfo) : Int :=
  intTruncDiv (m.height * (m.scale.den : Int)) m.scale.num

/-! ## `read_config` -/

/-- Outcome of one line of the config file inside the `read_config` loop:
skipped (blank, comment, or a 2/3-field line), one appended entry, or a
`ValueError` raised by `int(...)`. -/
inductive LineResult where
  | skip
  | entry (c : MonitorConfig)
  | err
deriving DecidableEq, Repr

def nthPart (ps : List (List Char)) (i : Nat) : List Char := ps.getD i []

/-- The numeric fields of a line: `int(parts[i]) if parts[i] else 0` — an
empty field is 0, a non-empty field goes through `int`, whose failure is a
`ValueError`. -/
def numField (p : List Char) : Option Int :=
  if p = [] then some 0 else pInt p

/-- One iteration of the `read_config` line loop. -/
def parseLine (l : List Char) : LineResult :=
  let s := pyStrip l
  if s = [] then .skip
  else if s.headD ' ' = '#' then .skip
  else
    let parts := splitOnChar ',' s
    if 4 ≤ parts.length then
      match numField (nthPart parts 1) with
      | none => .err
      | some vx =>
        match numField (nthPart parts 2) with
        | none => .err
        | some vy =>
            .entry ⟨⟨nthPart parts 0⟩, vx, vy,
                    decide (pyLower (nthPart parts 3) = "true".data)⟩
    else if parts.length = 1 then .entry ⟨⟨nthPart parts 0⟩, 0, 0, false⟩
    else .skip

/-- The `read_config` loop over the file's lines with the accumulated
`configs` list; the `Bool` records whether a `ValueError`/`IOError` was
raised (and caught by the enclosing `except`, which keeps the entries
appended so far). -/
def readAll : List (List Char) → List MonitorConfig → List MonitorConfig × Bool
  | [], acc => (acc, false)
  | l :: ls, acc =>
    match parseLine l with
    | .skip => readAll ls acc
    | .entry c => readAll ls (acc ++ [c])
    | .err => (acc, true)

/-- Entries produced from a list of lines. -/
def readLines (ls : List (List Char)) : List MonitorConfig :=
  (readAll ls []).1

/-- The state of the config file when `read_config` runs: absent, unreadable
(the `open`/lock raises `IOError`), or present with its lines. -/
inductive FileState where
  | missing
  | ioError
  | content (lines : List (List Char))

/-- `read_config`: an absent file yields `[]`; an `IOError` is caught with
`configs` still empty; otherwise the line loop runs. -/
def read_config : FileState → List MonitorConfig
  | .missing => []
  | .ioError => []
  | .content ls => readLines ls

/-- The entries of the lines that parse cleanly, in order (used to state that
a failed read returns the entries of a prefix of the file). -/
def okEntries : List (List Char) → List MonitorConfig
  | [] => []
  | l :: ls =>
    match parseLine l with
    | .entry c => c :: okEntries ls
    | _ => okEntries ls

/-! ## `write_config` -/

def pyBoolChars (b : Bool) : List Char :=
  if b then "True".data else "False".data

/-- The line `f"{cfg.name},{cfg.x},{cfg.y},{cfg.is_primary}"`. -/
def configLine (c : MonitorConfig) : List Char :=
  c.name.data ++ ',' :: intChars c.x ++ ',' :: intChars c.y
    ++ ',' :: pyBoolChars c.is_primary

/-- The lines `write_config` emits: the three-comment header, the blank line
from the `\n\n`, then one line per config. -/
def write_config (cfgs : List MonitorConfig) : List (List Char) :=
  "# Monitor-Konfiguration für workspace-per-monitor.sh".data
    :: "# Format: name,x,y,is_primary".data
    :: "# Reihenfolge bestimmt Workspace-Zuordnung (Index 0 = WS 1-9, etc.)".data
    :: [] :: cfgs.map configLine

/-- A connector name survives the on-disk format: no comma (the field
separator), no line break (the record separator), and it neither starts
with `#` (a comment) nor with whitespace (removed by `strip`). -/
def nameOk (s : String) : Bool :=
  s.data.all (fun c => !(c = ',' || c = '\n' || c = '\r'))
    && (match s.data.head? with
        | none => true
        | some c => !(c = '#') && !c.isWhitespace)

/-! ## The discovered-monitor dictionary

`MonitorConfigWindow` keeps `self.monitors = {m.name: m for m in
get_sway_outputs()}`; the dict is modelled as the underlying list with
last-wins lookup by name. -/

/-- The dict's key set, `set(self.monitors.keys())`. -/
def dictKeys (mons : List MonitorInfo) : List String :=
  (mons.map (fun m => m.name)).dedup

/-- `self.monitors.get(n)` / `self.monitors[n]`: the last monitor of that
name wins, as in a dict comprehension. -/
def lookupMon (mons : List MonitorInfo) (n : String) : Option MonitorInfo :=
  (mons.filter (fun m => m.name == n)).getLast?

/-! ## `MonitorConfigWindow._sync_configs` -/

/-- Code-point lexicographic comparison of character lists: exactly how
Python compares the connector-name strings in `sorted` and `min`. -/
def strLtList : List Char → List Char → Bool
  | [], [] => false
  | [], _ :: _ => true
  | _ :: _, [] => false
  | a :: as, b :: bs =>
      if a.toNat < b.toNat then true
      else if b.toNat < a.toNat then false
      else strLtList as bs

def strLt (a b : String) : Bool := strLtList a.data b.data

def strLe (a b : String) : Bool := !(strLtList b.data a.data)

/-- Stable insertion into a sorted list of names. -/
def insertStr (n : String) : List String → List String
  | [] => [n]
  | m :: ms => if strLt n m then n :: m :: ms else m :: insertStr n ms

/-- Python `sorted` on a list of names (the input here never has
duplicates, so any correct sort produces the same list). -/
def sortStr (l : List String) : List String := l.foldr insertStr []

/-- The filter `[c for c in self.configs if c.name in active_names]`. -/
def keptOf (mons : List MonitorInfo) (cfgs : List MonitorConfig) :
    List MonitorConfig :=
  cfgs.filter (fun c => (dictKeys mons).contains c.name)

/-- `sorted(active_names - config_names)`. -/
def newNamesOf (mons : List MonitorInfo) (cfgs : List MonitorConfig) :
    List String :=
  sortStr ((dictKeys mons).filter
    (fun n => !((cfgs.map (fun c => c.name)).contains n)))

/-- The `x` a newly appended monitor receives in `_sync_configs`: 0 for an
empty list (or when the last entry's name is not a key of the dict — dead
after the filter step), otherwise the last entry's `x` plus its monitor's
scaled width. -/
def xval (mons : List MonitorInfo) (cs : List MonitorConfig) : Int :=
  match cs.getLast? with
  | none => 0
  | some last =>
    match lookupMon mons last.name with
    | some mi => last.x + scaled_width mi
    | none => 0

/-- The `for name in sorted(...)` loop of `_sync_configs`: each new monitor
is appended with `x = xval` of the list at that moment and `y = 0`. -/
def addNew (mons : List MonitorInfo) :
    List MonitorConfig → List String → List MonitorConfig
  | cs, [] => cs
  | cs, n :: ns => addNew mons (cs ++ [⟨n, xval mons cs, 0, false⟩]) ns

/-- The new entries `addNew` appends, by themselves (proof artefact: it is
proved equal to what `addNew` adds after the existing entries). -/
def buildNews (mons : List MonitorInfo) :
    List MonitorConfig → List String → List MonitorConfig
  | _, [] => []
  | cs, n :: ns =>
      ⟨n, xval mons cs, 0, false⟩
        :: buildNews mons (cs ++ [⟨n, xval mons cs, 0, false⟩]) ns

/-- The config list after the drop-and-append phases of `_sync_configs`,
before the primary fix-up. -/
def preSync (mons : List MonitorInfo) (cfgs : List MonitorConfig) :
    List MonitorConfig :=
  addNew mons (keptOf mons cfgs) (newNamesOf mons cfgs)

/-- Sets `is_primary` on the first entry carrying the given name, modelling
the mutation `sorted_by_name[0].is_primary = True` (a stable sort's first
element is the earliest entry with the minimal name). -/
def markFirst (m : String) : List MonitorConfig → List MonitorConfig
  | [] => []
  | c :: cs =>
      if c.name = m then { c with is_primary := true } :: cs
      else c :: markFirst m cs

/-- The smaller of two names, keeping the left one on a tie (what a stable
sort's ordering of equal keys amounts to). -/
def pymin (a b : String) : String := if strLt b a then b else a

/-- The minimal name in a nonempty config list. -/
def minNameOf (c : MonitorConfig) (cs : List MonitorConfig) : String :=
  cs.foldl (fun a d => pymin a d.name) c.name

/-- The `has_primary` fix-up at the end of `_sync_configs`. -/
def syncPrimary (cs : List MonitorConfig) : List MonitorConfig :=
  if cs.any (fun c => c.is_primary) then cs
  else
    match cs with
    | [] => []
    | c :: rest => markFirst (minNameOf c rest) (c :: rest)

/-- `_sync_configs`, as a function of the monitor dict and the loaded
config list. -/
def sync_configs (mons : List MonitorInfo) (cfgs : List MonitorConfig) :
    List MonitorConfig :=
  syncPrimary (preSync mons cfgs)

/-- How many entries are marked primary. -/
def countPrimary (cs : List MonitorConfig) : Nat :=
  cs.countP (fun c => c.is_primary)

/-! ## `MonitorConfigWindow._position_relative_to_primary` -/

def defaultCfg : MonitorConfig := ⟨"", 0, 0, false⟩

/-- `_position_relative_to_primary(name, direction)` on a config list: the
target is the first config of that name, the primary the first config with
the flag; the update mutates the target in place. -/
def position_relative_to_primary (mons : List MonitorInfo)
    (nm direction : String) (cs : List MonitorConfig) : List MonitorConfig :=
  match cs.findIdx? (fun c => c.name == nm),
        cs.find? (fun c => c.is_primary) with
  | some i, some p =>
      let c := cs.getD i defaultCfg
      if c.name = p.name then cs
      else
        match lookupMon mons nm, lookupMon mons p.name with
        | some mon, some pmon =>
            let c' : MonitorConfig :=
              if direction = "east" then
                { c with x := p.x + scaled_width pmon, y := p.y }
              else if direction = "west" then
                { c with x := p.x - scaled_width mon, y := p.y }
              else if direction = "north" then
                { c with x := p.x, y := p.y - scaled_height mon }
              else if direction = "south" then
                { c with x := p.x, y := p.y + scaled_height pmon }
              else c
            cs.set i c'
        | _, _ => cs
  | _, _ => cs

/-! ## `MonitorConfigWindow._move_monitor` -/

/-- `_move_monitor(name, direction)`: find the first config with that name,
pop it and re-insert it at `i + direction` when that index is in range. -/
def move_monitor (nm : String) (d : Int) (cs : List MonitorConfig) :
    List MonitorConfig :=
  match cs.findIdx? (fun c => c.name == nm) with
  | none => cs
  | some i =>
      if 0 ≤ (i : Int) + d ∧ (i : Int) + d < (cs.length : Int) then
        (cs.eraseIdx i).insertIdx ((i : Int) + d).toNat (cs.getD i defaultCfg)
      else cs

/-- Swap of the adjacent positions `i` and `i + 1` (used to state what an
in-range move does). -/
def swapAdj : Nat → List MonitorConfig → List MonitorConfig
  | _, [] => []
  | 0, [c] => [c]
  | 0, a :: b :: t => b :: a :: t
  | n + 1, a :: t => a :: swapAdj n t

/-! ## `get_sway_outputs`

The `swaymsg` payload is modelled as a JSON value; the loop body is
replayed faithfully, in particular the exceptions Python would raise on
decoded JSON of an unexpected shape, which the `except` clause of
`get_sway_outputs` does not list. -/

inductive JValue where
  | jnull
  | jbool (b : Bool)
  | jnum (n : Int)
  | jstr (s : String)
  | jarr (elems : List JValue)
  | jobj (fields : List (String × JValue))

/-- Python exceptions the loop can raise that `get_sway_outputs` does not
catch. -/
inductive PyErr where
  | keyErr
  | attrErr
  | typeErr
deriving DecidableEq, Repr

/-- One discovered output as the loop builds it (`MonitorInfo(...)` with the
raw values a Python dataclass would store, no type checking). -/
structure RawMonitor where
  name : JValue
  width : JValue
  height : JValue
  scale : JValue
  active : Bool
  make : JValue
  model : JValue

/-- `d.get(k, default)` on a decoded JSON object. -/
def jget (fs : List (String × JValue)) (k : String) (d : JValue) : JValue :=
  match (fs.filter (fun p => p.1 == k)).getLast? with
  | some p => p.2
  | none => d

/-- `d[k]` on a decoded JSON object. -/
def jlookup (fs : List (String × JValue)) (k : String) : Option JValue :=
  (fs.filter (fun p => p.1 == k)).getLast?.map (fun p => p.2)

/-- Python truthiness of a decoded JSON value. -/
def truthy : JValue → Bool
  | .jnull => false
  | .jbool b => b
  | .jnum n => n != 0
  | .jstr s => s != ""
  | .jarr xs => !xs.isEmpty
  | .jobj fs => !fs.isEmpty

/-- `for o in outputs`: arrays yield elements, strings their characters,
objects their keys; other values raise `TypeError`. -/
def iterOutputs : JValue → Except PyErr (List JValue)
  | .jarr xs => .ok xs
  | .jstr s => .ok (s.data.map (fun c => .jstr ⟨[c]⟩))
  | .jobj fs => .ok (fs.map (fun p => .jstr p.1))
  | _ => .error .typeErr

/-- The loop body for one element `o`: `o.get('active', False)` needs a
dict (`AttributeError` otherwise); an active element reads `o['name']`
(`KeyError` when absent) and then `mode.get(...)`, which needs the
`current_mode` value to be a dict. -/
def processOutput : JValue → Except PyErr (Option RawMonitor)
  | .jobj fields =>
      if truthy (jget fields "active" (.jbool false)) then
        match jlookup fields "name" with
        | none => .error .keyErr
        | some nm =>
          match jget fields "current_mode" (.jobj []) with
          | .jobj mfields =>
              .ok (some
                { name := nm
                  width := jget mfields "width" (.jnum 1920)
                  height := jget mfields "height" (.jnum 1080)
                  scale := jget fields "scale" (.jnum 1)
                  active := true
                  make := jget fields "make" (.jstr "")
                  model := jget fields "model" (.jstr "") })
          | _ => .error .attrErr
      else .ok none
  | _ => .error .attrErr

def buildMonitors : List JValue → List RawMonitor →
    Except PyErr (List RawMonitor)
  | [], acc => .ok acc
  | o :: os, acc =>
    match processOutput o with
    | .error e => .error e
    | .ok none => buildMonitors os acc
    | .ok (some m) => buildMonitors os (acc ++ [m])

/-- What `swaymsg -t get_outputs -r` produced: a caught process failure
(`CalledProcessError`), a missing binary (`FileNotFoundError`), output that
is not JSON (`JSONDecodeError`), or a decoded value. -/
inductive SwayResult where
  | procErr
  | noBinary
  | badJson
  | parsed (v : JValue)

/-- `get_sway_outputs`: the three listed exceptions are caught and yield
`[]`; decoded JSON is folded through the loop, whose own exceptions
propagate. -/
def get_sway_outputs : SwayResult → Except PyErr (List RawMonitor)
  | .procErr => .ok []
  | .noBinary => .ok []
  | .badJson => .ok []
  | .parsed v =>
    match iterOutputs v with
    | .error e => .error e
    | .ok os => buildMonitors os []

/-! ## Concrete fixtures used by witnesses and counterexamples -/

def monA : MonitorInfo :=
  { name := "A", width := 1920, height := 1080, scale := 1, active := true }

def monB : MonitorInfo :=
  { name := "B", width := 1000, height := 500, scale := 2, active := true }

/-! # Theorems -/

/-! ## C4: failure behaviour of `get_sway_outputs` -/

/-- C4 (counterexample): decoded JSON that is a list with one active object
lacking `name` is malformed discovery data, yet `get_sway_outputs` raises an
uncaught `KeyError` instead of returning the empty list. -/
theorem get_sway_outputs_raises_counterexample :
    get_sway_outputs (.parsed (.jarr [.jobj [("active", .jbool true)]]))
        = .error .keyErr
      ∧ get_sway_outputs (.parsed (.jarr [.jobj [("active", .jbool true)]]))
        ≠ .ok [] :=
  ⟨rfl, fun h => nomatch h⟩

/-- C4 (amended): for the failure modes the `except` clause actually lists —
`CalledProcessError`, a missing binary (`FileNotFoundError`), and output that
fails to decode as JSON (`JSONDecodeError`) — `get_sway_outputs` returns the
empty list; decoded JSON of unexpected shape may instead raise. -/
theorem get_sway_outputs_caught_failures :
    get_sway_outputs .procErr = .ok []
      ∧ get_sway_outputs .noBinary = .ok []
      ∧ get_sway_outputs .badJson = .ok [] :=
  ⟨rfl, rfl, rfl⟩

/-! ## Support lemmas about the read loop -/

theorem readAll_single (l : List Char) :
    readAll [l] [] =
      match parseLine l with
      | .skip => ([], false)
      | .entry c => ([c], false)
      | .err => ([], true) := by
  cases h : parseLine l <;> simp [readAll, h]

theorem readAll_acc (ls : List (List Char)) (acc : List MonitorConfig) :
    readAll ls acc = (acc ++ (readAll ls []).1, (readAll ls []).2) := by
  induction ls generalizing acc with
  | nil => simp [readAll]
  | cons l ls ih =>
    cases h : parseLine l with
    | skip => simp only [readAll, h]; exact ih acc
    | entry c =>
        simp only [readAll, h]
        rw [ih (acc ++ [c]), ih ([] ++ [c])]
        simp
    | err => simp [readAll, h]

/-- When the stripped line splits into at least four fields, the loop body
is determined by the two numeric fields. -/
theorem parseLine_split4 (l p0 p1 p2 p3 : List Char) (rest : List (List Char))
    (hne : pyStrip l ≠ []) (hcm : (pyStrip l).headD ' ' ≠ '#')
    (hsplit : splitOnChar ',' (pyStrip l) = p0 :: p1 :: p2 :: p3 :: rest) :
    parseLine l =
      match numField p1 with
      | none => .err
      | some vx =>
        match numField p2 with
        | none => .err
        | some vy =>
            .entry ⟨⟨p0⟩, vx, vy, decide (pyLower p3 = "true".data)⟩ := by
  unfold parseLine
  rw [if_neg hne, if_neg hcm, hsplit]
  have hlen : 4 ≤ (p0 :: p1 :: p2 :: p3 :: rest).length := by
    simp only [List.length_cons]; omega
  rw [if_pos hlen]
  simp [nthPart]

/-- A line whose stripped content has no comma at all is the legacy
single-field format. -/
theorem parseLine_split1 (l p0 : List Char)
    (hne : pyStrip l ≠ []) (hcm : (pyStrip l).headD ' ' ≠ '#')
    (hsplit : splitOnChar ',' (pyStrip l) = [p0]) :
    parseLine l = .entry ⟨⟨p0⟩, 0, 0, false⟩ := by
  unfold parseLine
  rw [if_neg hne, if_neg hcm, hsplit]
  norm_num [nthPart]

/-! ## C10: two- and three-field lines are ignored -/

/-- C10: a non-comment line that splits into exactly two or exactly three
comma-separated fields is skipped (no entry, no error), and an entry only
ever comes from a 1-field or a (at least) 4-field line. -/
theorem read_two_three_field_lines_skipped (l : List Char) :
    ((splitOnChar ',' (pyStrip l)).length = 2
        ∨ (splitOnChar ',' (pyStrip l)).length = 3 → parseLine l = .skip)
    ∧ (∀ c, parseLine l = .entry c
        → (splitOnChar ',' (pyStrip l)).length = 1
          ∨ 4 ≤ (splitOnChar ',' (pyStrip l)).length) := by
  constructor
  · intro hlen
    unfold parseLine
    by_cases hne : pyStrip l = []
    · rw [hne] at hlen
      simp [splitOnChar] at hlen
    by_cases hcm : (pyStrip l).headD ' ' = '#'
    · rw [if_neg hne, if_pos hcm]
    rw [if_neg hne, if_neg hcm]
    rw [if_neg (by omega), if_neg (by omega)]
  · intro c hc
    by_contra hno
    push_neg at hno
    obtain ⟨h1, h4⟩ := hno
    unfold parseLine at hc
    by_cases hne : pyStrip l = []
    · rw [if_pos hne] at hc; exact nomatch hc
    by_cases hcm : (pyStrip l).headD ' ' = '#'
    · rw [if_neg hne, if_pos hcm] at hc; exact nomatch hc
    rw [if_neg hne, if_neg hcm, if_neg (by omega), if_neg h1] at hc
    exact nomatch hc

/-! ## C2: what a failing read returns -/

/-- C2 (counterexample): a parse failure in the middle of the file does
not degrade to the empty config list — the entries parsed before the
failing line are kept and returned. -/
theorem read_failing_keeps_entries_counterexample :
    (readAll ["A,1,2,true".data, "B,zz,0,false".data] []).2 = true
      ∧ read_config (.content ["A,1,2,true".data, "B,zz,0,false".data])
          = [⟨"A", 1, 2, true⟩]
      ∧ read_config (.content ["A,1,2,true".data, "B,zz,0,false".data])
          ≠ [] := by
  refine ⟨by decide, by decide, by decide⟩

/-- C2 (amended): `read_config` never lets an exception escape; a missing
or unopenable file yields `[]`, and a failing parse returns exactly the
entries of the cleanly-parsed prefix of the file before the failure — not
necessarily the empty list. A read with no failure consumes the whole
file. -/
theorem read_config_failure_amended :
    read_config .missing = [] ∧ read_config .ioError = []
      ∧ ∀ ls : List (List Char), ∃ j, j ≤ ls.length
          ∧ read_config (.content ls) = okEntries (ls.take j)
          ∧ ((readAll ls []).2 = false → j = ls.length) := by
  refine ⟨rfl, rfl, ?_⟩
  intro ls
  induction ls with
  | nil => exact ⟨0, by simp [read_config, readLines, readAll, okEntries]⟩
  | cons l ls ih =>
    obtain ⟨j, hj, h1, h2⟩ := ih
    cases h : parseLine l with
    | skip =>
        refine ⟨j + 1, by simpa using Nat.succ_le_succ hj, ?_, ?_⟩
        · simpa [read_config, readLines, readAll, h, okEntries] using h1
        · intro hfl
          simp only [readAll, h] at hfl
          simp [h2 hfl]
    | entry c =>
        refine ⟨j + 1, by simpa using Nat.succ_le_succ hj, ?_, ?_⟩
        · simp only [read_config, readLines, readAll, h, List.take_succ_cons,
            okEntries]
          rw [readAll_acc ls ([] ++ [c])]
          simp only [read_config, readLines] at h1
          simp [h1]
        · intro hfl
          simp only [readAll, h] at hfl
          rw [readAll_acc ls ([] ++ [c])] at hfl
          simp only at hfl
          simp [h2 hfl]
    | err =>
        refine ⟨0, by omega, ?_, ?_⟩
        · simp [read_config, readLines, readAll, h, okEntries]
        · intro hfl
          simp [readAll, h] at hfl

/-! ## C3: field semantics of one config line -/

/-- C3 (counterexample): a four-field line with the malformed numeric field
`abc` does not yield an entry with that coordinate defaulted to 0 — the
`int(...)` call raises `ValueError`, the loop aborts, and no entry at all is
produced for the line. -/
theorem read_malformed_numeric_counterexample :
    readLines ["M,abc,0,true".data] = []
      ∧ (readAll ["M,abc,0,true".data] []).2 = true
      ∧ readLines ["M,abc,0,true".data] ≠ [⟨"M", 0, 0, true⟩] := by
  refine ⟨by decide, by decide, by decide⟩

/-- C3 (amended): for a non-blank, non-comment line — in the 4-or-more-field
format, an empty (missing) numeric field yields 0 for that coordinate; a
numeric field that parses yields its value, with the boolean field true
exactly when it is the literal `true` case-insensitively; a non-empty
numeric field on which `int` fails raises `ValueError`, aborting the read at
that line with no entry for it. A legacy single-field line yields the name
with x = 0, y = 0 and primary = false. -/
theorem read_config_line_semantics (l : List Char)
    (hne : pyStrip l ≠ []) (hcm : (pyStrip l).headD ' ' ≠ '#') :
    (∀ p0 p1 p2 p3 rest,
      splitOnChar ',' (pyStrip l) = p0 :: p1 :: p2 :: p3 :: rest →
        ((p1 = [] → p2 = [] →
            readLines [l] = [⟨⟨p0⟩, 0, 0, decide (pyLower p3 = "true".data)⟩])
          ∧ (∀ vx vy, numField p1 = some vx → numField p2 = some vy →
              readLines [l] = [⟨⟨p0⟩, vx, vy,
                decide (pyLower p3 = "true".data)⟩])
          ∧ (p1 ≠ [] → pInt p1 = none →
              readLines [l] = [] ∧ (readAll [l] []).2 = true)
          ∧ (∀ vx, numField p1 = some vx → p2 ≠ [] → pInt p2 = none →
              readLines [l] = [] ∧ (readAll [l] []).2 = true)))
    ∧ (∀ p0, splitOnChar ',' (pyStrip l) = [p0] →
        readLines [l] = [⟨⟨p0⟩, 0, 0, false⟩]) := by
  constructor
  · intro p0 p1 p2 p3 rest hsplit
    have hp := parseLine_split4 l p0 p1 p2 p3 rest hne hcm hsplit
    refine ⟨?_, ?_, ?_, ?_⟩
    · intro h1 h2
      rw [h1, h2] at hp
      simp only [numField, if_pos rfl] at hp
      simp [readLines, readAll_single, hp]
    · intro vx vy hx hy
      rw [hx, hy] at hp
      simp [readLines, readAll_single, hp]
    · intro h1 h2
      have : numField p1 = none := by simp [numField, h1, h2]
      rw [this] at hp
      simp [readLines, readAll_single, hp]
    · intro vx hx h1 h2
      have hy : numField p2 = none := by simp [numField, h1, h2]
      rw [hx, hy] at hp
      simp [readLines, readAll_single, hp]
  · intro p0 hsplit
    have hp := parseLine_split1 l p0 hne hcm hsplit
    simp [readLines, readAll_single, hp]

/-- Witness for C3: the legacy line `eDP-1`, a line with empty numeric
fields and an upper-case boolean, and a line whose y field is malformed
while its x field parses, at concrete inputs. -/
theorem read_config_line_semantics_witness :
    readLines ["eDP-1".data] = [⟨"eDP-1", 0, 0, false⟩]
      ∧ readLines ["A,,,TRUE".data] = [⟨"A", 0, 0, true⟩]
      ∧ readLines ["M,1,zz,true".data] = [] := by
  refine ⟨?_, ?_, ?_⟩
  · have h := (read_config_line_semantics "eDP-1".data (by decide)
      (by decide)).2 "eDP-1".data (by decide)
    simpa using h
  · have h := ((read_config_line_semantics "A,,,TRUE".data (by decide)
      (by decide)).1 "A".data "".data "".data "TRUE".data [] (by decide)).1
      rfl rfl
    simpa using h
  · have h := (((read_config_line_semantics "M,1,zz,true".data (by decide)
      (by decide)).1 "M".data "1".data "zz".data "true".data []
      (by decide)).2.2.2 1 (by decide) (by decide) (by decide)).1
    simpa using h

/-! ## C5: digits, decimal rendering and `int` round-trip -/

theorem isDigit_not_ws {c : Char} (h : c.isDigit = true) :
    c.isWhitespace = false := by
  by_cases h1 : c = ' '
  · subst h1; exact absurd h (by decide)
  by_cases h2 : c = '\t'
  · subst h2; exact absurd h (by decide)
  by_cases h3 : c = '\r'
  · subst h3; exact absurd h (by decide)
  by_cases h4 : c = '\n'
  · subst h4; exact absurd h (by decide)
  simp [Char.isWhitespace, h1, h2, h3, h4]

theorem isDigit_ne {c : Char} (d : Char) (h : c.isDigit = true)
    (hd : d.isDigit = false) : c ≠ d := by
  intro he; subst he; rw [h] at hd; exact nomatch hd

theorem natCharsAux_isDigit :
    ∀ fuel n, n < fuel → ∀ c ∈ natCharsAux fuel n, c.isDigit = true := by
  intro fuel
  induction fuel with
  | zero => intro n hn; omega
  | succ f ih =>
    intro n hn c hc
    by_cases h10 : n < 10
    · simp only [natCharsAux, if_pos h10, List.mem_singleton] at hc
      subst hc
      interval_cases n <;> decide
    · simp only [natCharsAux, if_neg h10, List.mem_append,
        List.mem_singleton] at hc
      rcases hc with hc | hc
      · have hdiv : n / 10 < n := Nat.div_lt_self (by omega) (by omega)
        exact ih (n / 10) (by omega) c hc
      · subst hc
        have hmod : n % 10 < 10 := Nat.mod_lt n (by omega)
        set m := n % 10 with hm
        interval_cases m <;> decide

theorem digitVal_digitChar (n : Nat) (h : n < 10) :
    digitVal (Nat.digitChar n) = n := by
  interval_cases n <;> decide

theorem digitsVal_append_one (l : List Char) (c : Char) :
    digitsVal (l ++ [c]) = 10 * digitsVal l + digitVal c := by
  simp [digitsVal, List.foldl_append]

theorem natCharsAux_val :
    ∀ fuel n, n < fuel → digitsVal (natCharsAux fuel n) = n := by
  intro fuel
  induction fuel with
  | zero => intro n hn; omega
  | succ f ih =>
    intro n hn
    by_cases h10 : n < 10
    · simp only [natCharsAux, if_pos h10]
      have : digitsVal [Nat.digitChar n] = digitVal (Nat.digitChar n) := by
        simp [digitsVal]
      rw [this, digitVal_digitChar n h10]
    · have hdiv : n / 10 < n := Nat.div_lt_self (by omega) (by omega)
      simp only [natCharsAux, if_neg h10]
      rw [digitsVal_append_one, ih (n / 10) (by omega),
        digitVal_digitChar _ (Nat.mod_lt n (by omega))]
      omega

theorem natCharsAux_ne_nil :
    ∀ fuel n, n < fuel → natCharsAux fuel n ≠ [] := by
  intro fuel n hn
  cases fuel with
  | zero => omega
  | succ f =>
    by_cases h10 : n < 10
    · simp [natCharsAux, if_pos h10]
    · simp [natCharsAux, if_neg h10]

theorem natChars_isDigit (n : Nat) : ∀ c ∈ natChars n, c.isDigit = true :=
  natCharsAux_isDigit (n + 1) n (Nat.lt_succ_self n)

theorem natChars_val (n : Nat) : digitsVal (natChars n) = n :=
  natCharsAux_val (n + 1) n (Nat.lt_succ_self n)

theorem natChars_ne_nil (n : Nat) : natChars n ≠ [] :=
  natCharsAux_ne_nil (n + 1) n (Nat.lt_succ_self n)

theorem deUnderscore_digits :
    ∀ l : List Char, (∀ c ∈ l, c.isDigit = true) → deUnderscore l = some l := by
  intro l
  induction l with
  | nil => intro _; rfl
  | cons c rest ih =>
    intro h
    have hc : c.isDigit = true := h c (List.mem_cons_self c rest)
    have hne : c ≠ '_' := isDigit_ne '_' hc (by decide)
    unfold deUnderscore
    rw [if_neg hne, if_pos hc, ih (fun d hd => h d (List.mem_cons_of_mem c hd))]
    rfl

theorem parseDigits_of_digits (l : List Char) (hne : l ≠ [])
    (h : ∀ c ∈ l, c.isDigit = true) :
    parseDigits l = some (digitsVal l) := by
  cases l with
  | nil => exact absurd rfl hne
  | cons c rest =>
    simp only [parseDigits, if_pos (h c (List.mem_cons_self c rest))]
    rw [deUnderscore_digits _ h]
    rfl

theorem dropWhile_eq_self_of_head (p : Char → Bool) (l : List Char)
    (h : ∀ c, l.head? = some c → p c = false) : l.dropWhile p = l := by
  cases l with
  | nil => rfl
  | cons c rest => simp [List.dropWhile_cons, h c rfl]

theorem pyStrip_eq_self (l : List Char)
    (hh : ∀ c, l.head? = some c → c.isWhitespace = false)
    (hl : ∀ c, l.getLast? = some c → c.isWhitespace = false) :
    pyStrip l = l := by
  unfold pyStrip
  rw [dropWhile_eq_self_of_head _ _ hh]
  rw [dropWhile_eq_self_of_head _ _ (fun c hc =>
    hl c (by rwa [List.head?_reverse] at hc))]
  exact List.reverse_reverse l

theorem intChars_mem (x : Int) :
    ∀ c ∈ intChars x, c.isDigit = true ∨ c = '-' := by
  intro c hc
  unfold intChars at hc
  by_cases hx : x < 0
  · rw [if_pos hx] at hc
    rcases List.mem_cons.mp hc with h | h
    · exact Or.inr h
    · exact Or.inl (natChars_isDigit _ c h)
  · rw [if_neg hx] at hc
    exact Or.inl (natChars_isDigit _ c hc)

theorem intChars_ne_nil (x : Int) : intChars x ≠ [] := by
  unfold intChars
  by_cases hx : x < 0
  · simp [if_pos hx]
  · simp [if_neg hx, natChars_ne_nil]

theorem pyStrip_intChars (x : Int) : pyStrip (intChars x) = intChars x := by
  apply pyStrip_eq_self
  · intro c hc
    unfold intChars at hc
    by_cases hx : x < 0
    · rw [if_pos hx] at hc
      simp only [List.head?_cons, Option.some_inj] at hc
      subst hc; decide
    · rw [if_neg hx] at hc
      have : c ∈ natChars x.toNat := by
        cases hn : natChars x.toNat with
        | nil => exact absurd hn (natChars_ne_nil _)
        | cons d ds =>
            rw [hn] at hc
            simp only [List.head?_cons, Option.some_inj] at hc
            subst hc; exact List.mem_cons_self d ds
      exact isDigit_not_ws (natChars_isDigit _ c this)
  · intro c hc
    have hmem : c ∈ intChars x := List.mem_of_mem_getLast? hc
    rcases intChars_mem x c hmem with h | h
    · exact isDigit_not_ws h
    · subst h; decide

/-- Python `int` inverts the decimal rendering of any integer. -/
theorem pInt_intChars (x : Int) : pInt (intChars x) = some x := by
  simp only [pInt, pyStrip_intChars]
  by_cases hx : x < 0
  · have hi : intChars x = '-' :: natChars x.natAbs := by
      unfold intChars; rw [if_pos hx]
    rw [hi]
    rw [List.headD_cons, List.tail_cons,
      if_neg (show ¬('-' = '+') by decide), if_pos rfl]
    rw [parseDigits_of_digits _ (natChars_ne_nil _) (natChars_isDigit _)]
    rw [natChars_val]
    show some (-(x.natAbs : Int)) = some x
    rw [Option.some_inj]
    omega
  · have hi : intChars x = natChars x.toNat := by
      unfold intChars; rw [if_neg hx]
    rw [hi]
    cases hn : natChars x.toNat with
    | nil => exact absurd hn (natChars_ne_nil _)
    | cons d ds =>
        have hd : d.isDigit = true := by
          apply natChars_isDigit x.toNat
          rw [hn]; exact List.mem_cons_self d ds
        rw [List.headD_cons, if_neg (isDigit_ne '+' hd (by decide)),
          if_neg (isDigit_ne '-' hd (by decide))]
        rw [← hn, parseDigits_of_digits _ (natChars_ne_nil _)
          (natChars_isDigit _), natChars_val]
        show some ((x.toNat : Nat) : Int) = some x
        rw [Option.some_inj]
        omega

theorem splitOnChar_ne_nil (sep : Char) (l : List Char) :
    splitOnChar sep l ≠ [] := by
  induction l with
  | nil => simp [splitOnChar]
  | cons c rest ih =>
    simp only [splitOnChar]
    cases h : splitOnChar sep rest with
    | nil => simp
    | cons hh tt => by_cases hc : c = sep <;> simp [hc]

theorem splitOnChar_no_sep (sep : Char) (l : List Char) (h : sep ∉ l) :
    splitOnChar sep l = [l] := by
  induction l with
  | nil => rfl
  | cons c rest ih =>
    have hc : c ≠ sep := fun he => h (he ▸ List.mem_cons_self c rest)
    have hr := ih (fun hm => h (List.mem_cons_of_mem c hm))
    simp only [splitOnChar, hr]
    rw [if_neg (fun he => hc he)]

theorem splitOnChar_append (sep : Char) (l r : List Char) (h : sep ∉ l) :
    splitOnChar sep (l ++ sep :: r) = l :: splitOnChar sep r := by
  induction l with
  | nil =>
    simp only [List.nil_append, splitOnChar]
    cases hr : splitOnChar sep r with
    | nil => exact absurd hr (splitOnChar_ne_nil sep r)
    | cons hh tt => simp
  | cons c cl ih =>
    have hc : c ≠ sep := fun he => h (he ▸ List.mem_cons_self c cl)
    have hr := ih (fun hm => h (List.mem_cons_of_mem c hm))
    simp only [List.cons_append, splitOnChar, List.append_eq, hr]
    cases hs : splitOnChar sep r with
    | nil => exact absurd hs (splitOnChar_ne_nil sep r)
    | cons hh tt => simp [hc]

theorem comma_not_mem_intChars (x : Int) : ',' ∉ intChars x := by
  intro hm
  rcases intChars_mem x ',' hm with h | h
  · exact absurd h (by decide)
  · exact nomatch h

theorem comma_not_mem_pyBoolChars (b : Bool) : ',' ∉ pyBoolChars b := by
  cases b <;> decide

/-- The written config line splits back into exactly its four fields. -/
theorem splitOnChar_configLine (c : MonitorConfig)
    (h : ',' ∉ c.name.data) :
    splitOnChar ',' (configLine c)
      = [c.name.data, intChars c.x, intChars c.y,
          pyBoolChars c.is_primary] := by
  unfold configLine
  simp only [List.append_assoc, List.cons_append]
  rw [splitOnChar_append ',' c.name.data _ h,
    splitOnChar_append ',' (intChars c.x) _ (comma_not_mem_intChars _),
    splitOnChar_append ',' (intChars c.y) _ (comma_not_mem_intChars _),
    splitOnChar_no_sep ',' _ (comma_not_mem_pyBoolChars _)]

theorem nameOk_comma {s : String} (h : nameOk s = true) : ',' ∉ s.data := by
  intro hm
  unfold nameOk at h
  rw [Bool.and_eq_true, List.all_eq_true] at h
  have := h.1 ',' hm
  simp at this

theorem nameOk_head {s : String} (h : nameOk s = true) :
    ∀ c, s.data.head? = some c → (c ≠ '#' ∧ c.isWhitespace = false) := by
  intro c hc
  unfold nameOk at h
  rw [Bool.and_eq_true] at h
  have h2 := h.2
  rw [hc] at h2
  simp only [Bool.and_eq_true, Bool.not_eq_true'] at h2
  refine ⟨?_, h2.2⟩
  intro he
  subst he
  simpa using h2.1

theorem configLine_head (c : MonitorConfig) :
    (configLine c).head? = c.name.data.head?.or (some ',') := by
  cases hn : c.name.data with
  | nil => simp [configLine, hn]
  | cons c0 cs => simp [configLine, hn]

theorem configLine_getLast (c : MonitorConfig) :
    (configLine c).getLast? = some 'e' := by
  unfold configLine
  rw [List.getLast?_append]
  have : (',' :: pyBoolChars c.is_primary).getLast? = some 'e' := by
    cases c.is_primary <;> decide
  rw [this]
  rfl

theorem configLine_ne_nil (c : MonitorConfig) : configLine c ≠ [] := by
  intro he
  have := configLine_getLast c
  rw [he] at this
  exact nomatch this

theorem pyStrip_configLine (c : MonitorConfig) (h : nameOk c.name = true) :
    pyStrip (configLine c) = configLine c := by
  apply pyStrip_eq_self
  · intro ch hch
    rw [configLine_head] at hch
    cases hn : c.name.data.head? with
    | none => rw [hn] at hch; simp at hch; subst hch; decide
    | some c0 =>
        rw [hn] at hch
        simp at hch
        subst hch
        exact (nameOk_head h c0 hn).2
  · intro ch hch
    rw [configLine_getLast c] at hch
    simp at hch
    subst hch
    decide

/-- The loop body parses a written config line back to exactly the config
that was written, provided the name survives the format. -/
theorem parseLine_configLine (c : MonitorConfig) (h : nameOk c.name = true) :
    parseLine (configLine c) = .entry c := by
  have hcomma : ',' ∉ c.name.data := nameOk_comma h
  have hstrip : pyStrip (configLine c) = configLine c := pyStrip_configLine c h
  have hne : pyStrip (configLine c) ≠ [] := by
    rw [hstrip]; exact configLine_ne_nil c
  have hcm : (pyStrip (configLine c)).headD ' ' ≠ '#' := by
    rw [hstrip]
    intro he
    cases hl : configLine c with
    | nil => exact configLine_ne_nil c hl
    | cons d ds =>
        rw [hl] at he
        simp only [List.headD_cons] at he
        subst he
        have hh := configLine_head c
        rw [hl] at hh
        cases hn : c.name.data.head? with
        | none => rw [hn] at hh; exact nomatch hh
        | some c0 =>
            rw [hn] at hh
            simp at hh
            exact (nameOk_head h c0 hn).1 hh.symm
  have hp := parseLine_split4 (configLine c) c.name.data (intChars c.x)
    (intChars c.y) (pyBoolChars c.is_primary) [] hne hcm
    (by rw [hstrip]; exact splitOnChar_configLine c hcomma)
  rw [hp]
  have hx : numField (intChars c.x) = some c.x := by
    unfold numField
    rw [if_neg (intChars_ne_nil _), pInt_intChars]
  have hy : numField (intChars c.y) = some c.y := by
    unfold numField
    rw [if_neg (intChars_ne_nil _), pInt_intChars]
  rw [hx, hy]
  cases c with
  | mk n x y b => cases b <;> rfl

theorem readLines_cons_skip (l : List Char) (ls : List (List Char))
    (h : parseLine l = .skip) : readLines (l :: ls) = readLines ls := by
  simp [readLines, readAll, h]

theorem readLines_cons_entry (l : List Char) (ls : List (List Char))
    (c : MonitorConfig) (h : parseLine l = .entry c) :
    readLines (l :: ls) = c :: readLines ls := by
  simp only [readLines, readAll, h]
  rw [readAll_acc ls ([] ++ [c])]
  simp

theorem readLines_map_configLine (cfgs : List MonitorConfig)
    (h : ∀ c ∈ cfgs, nameOk c.name = true) :
    readLines (cfgs.map configLine) = cfgs := by
  induction cfgs with
  | nil => rfl
  | cons c cs ih =>
      simp only [List.map_cons]
      rw [readLines_cons_entry _ _ c
        (parseLine_configLine c (h c (List.mem_cons_self c cs)))]
      rw [ih (fun d hd => h d (List.mem_cons_of_mem c hd))]

/-- C5 (counterexample): a config whose name begins with `#` is written as a
line the reader treats as a comment, so the round trip loses it. -/
theorem write_read_counterexample :
    readLines (write_config [⟨"#x", 0, 0, false⟩]) = []
      ∧ readLines (write_config [⟨"#x", 0, 0, false⟩])
          ≠ [⟨"#x", 0, 0, false⟩] := by
  refine ⟨by decide, by decide⟩

/-- C5 (amended): a successful `write_config` followed by `read_config`
returns exactly the written list — identical (name, x, y, is_primary)
tuples, order preserved — provided every name survives the line format: it
contains no comma and no line break, and does not begin with `#` or with
whitespace. -/
theorem write_read_round_trip (cfgs : List MonitorConfig)
    (h : ∀ c ∈ cfgs, nameOk c.name = true) :
    readLines (write_config cfgs) = cfgs := by
  unfold write_config
  rw [readLines_cons_skip _ _ (by decide), readLines_cons_skip _ _ (by decide),
    readLines_cons_skip _ _ (by decide), readLines_cons_skip _ _ (by decide)]
  exact readLines_map_configLine cfgs h

/-- Witness for C5 at a concrete two-element list with a primary flag and
negative coordinates. -/
theorem write_read_round_trip_witness :
    (∀ c ∈ [(⟨"eDP-1", 0, 0, true⟩ : MonitorConfig),
        ⟨"HDMI-A-1", -1920, 5, false⟩], nameOk c.name = true)
      ∧ readLines (write_config [(⟨"eDP-1", 0, 0, true⟩ : MonitorConfig),
          ⟨"HDMI-A-1", -1920, 5, false⟩])
        = [(⟨"eDP-1", 0, 0, true⟩ : MonitorConfig),
          ⟨"HDMI-A-1", -1920, 5, false⟩] :=
  ⟨by decide, write_read_round_trip _ (by decide)⟩

/-! ## Order facts about the code-point comparison -/

theorem strLtList_irrefl : ∀ l : List Char, strLtList l l = false := by
  intro l
  induction l with
  | nil => rfl
  | cons c cs ih => simp [strLtList, ih]

theorem strLtList_asymm :
    ∀ a b : List Char, strLtList a b = true → strLtList b a = false := by
  intro a
  induction a with
  | nil => intro b h; cases b <;> rfl
  | cons x as ih =>
    intro b h
    cases b with
    | nil => exact nomatch h
    | cons y bs =>
        simp only [strLtList] at h ⊢
        by_cases h1 : x.toNat < y.toNat
        · rw [if_neg (by omega), if_pos h1]
        · rw [if_neg h1] at h
          by_cases h2 : y.toNat < x.toNat
          · rw [if_pos h2] at h; exact nomatch h
          · rw [if_neg h2] at h
            rw [if_neg (by omega), if_neg (by omega)]
            exact ih bs h

/-- From `a ≤ b` and `b < c` conclude `a < c`. -/
theorem strLtList_le_lt_trans :
    ∀ a b c : List Char, strLtList b a = false → strLtList b c = true →
      strLtList a c = true := by
  intro a
  induction a with
  | nil =>
    intro b c _ hlt
    cases c with
    | nil => cases b with
      | nil => exact nomatch hlt
      | cons y bs => exact nomatch hlt
    | cons z cs => rfl
  | cons x as ih =>
    intro b c hle hlt
    cases c with
    | nil =>
        cases b with
        | nil => exact nomatch hlt
        | cons y bs => exact nomatch hlt
    | cons z cs =>
        cases b with
        | nil => exact nomatch hle
        | cons y bs =>
            simp only [strLtList] at hle hlt ⊢
            by_cases hyx : y.toNat < x.toNat
            · rw [if_pos hyx] at hle; exact nomatch hle
            rw [if_neg hyx] at hle
            by_cases hyz : y.toNat < z.toNat
            · have hxz : x.toNat < z.toNat := by omega
              rw [if_pos hxz]
            · rw [if_neg hyz] at hlt
              by_cases hzy : z.toNat < y.toNat
              · rw [if_pos hzy] at hlt; exact nomatch hlt
              · rw [if_neg hzy] at hlt
                by_cases hxy : x.toNat < y.toNat
                · have hxz : x.toNat < z.toNat := by omega
                  rw [if_pos hxz]
                · rw [if_neg hxy] at hle
                  have hxz : ¬x.toNat < z.toNat := by omega
                  have hzx : ¬z.toNat < x.toNat := by omega
                  rw [if_neg hxz, if_neg hzx]
                  exact ih bs cs hle hlt

/-- From `a ≤ b` and `b ≤ c` conclude `a ≤ c`. -/
theorem strLtList_le_trans :
    ∀ a b c : List Char, strLtList b a = false → strLtList c b = false →
      strLtList c a = false := by
  intro a b c hab hbc
  by_cases h : strLtList c a = true
  · have := strLtList_le_lt_trans b c a hbc h
    rw [this] at hab
    exact nomatch hab
  · simpa using h

/-- Two lists neither of which precedes the other are equal. -/
theorem strLtList_antisymm :
    ∀ a b : List Char, strLtList a b = false → strLtList b a = false →
      a = b := by
  intro a
  induction a with
  | nil =>
    intro b h1 _
    cases b with
    | nil => rfl
    | cons y bs => exact nomatch h1
  | cons x as ih =>
    intro b h1 h2
    cases b with
    | nil => exact nomatch h2
    | cons y bs =>
        simp only [strLtList] at h1 h2
        by_cases hxy : x.toNat < y.toNat
        · rw [if_pos hxy] at h1; exact nomatch h1
        by_cases hyx : y.toNat < x.toNat
        · rw [if_pos hyx] at h2; exact nomatch h2
        rw [if_neg hxy, if_neg hyx] at h1
        rw [if_neg hyx, if_neg hxy] at h2
        have hxy2 : x.toNat = y.toNat := by omega
        have hx : x = y := Char.ext (UInt32.ext hxy2)
        rw [hx, ih bs h1 h2]

theorem strLe_refl (a : String) : strLe a a = true := by
  simp [strLe, strLtList_irrefl]

theorem strLe_of_strLt {a b : String} (h : strLt a b = true) :
    strLe a b = true := by
  simp only [strLe, strLt] at *
  rw [strLtList_asymm _ _ h]
  rfl

theorem strLe_trans {a b c : String} (h1 : strLe a b = true)
    (h2 : strLe b c = true) : strLe a c = true := by
  simp only [strLe, Bool.not_eq_true'] at *
  exact strLtList_le_trans a.data b.data c.data h1 h2

theorem strLt_of_strLe_of_ne {a b : String} (h1 : strLe a b = true)
    (h2 : a ≠ b) : strLt a b = true := by
  simp only [strLe, Bool.not_eq_true'] at h1
  by_cases h : strLt a b = true
  · exact h
  · simp only [strLt, Bool.not_eq_true] at h
    exact absurd (String.ext (strLtList_antisymm a.data b.data h h1)) h2

/-! ## Sorting the new connector names -/

theorem mem_insertStr (n x : String) :
    ∀ l : List String, x ∈ insertStr n l ↔ x = n ∨ x ∈ l := by
  intro l
  induction l with
  | nil => simp [insertStr]
  | cons m ms ih =>
    simp only [insertStr]
    by_cases h : strLt n m = true
    · simp [if_pos h]
    · rw [if_neg h]
      simp only [List.mem_cons, ih]
      tauto

theorem mem_sortStr (x : String) :
    ∀ l : List String, x ∈ sortStr l ↔ x ∈ l := by
  intro l
  induction l with
  | nil => simp [sortStr]
  | cons m ms ih =>
    simp only [sortStr, List.foldr_cons] at *
    rw [mem_insertStr]
    simp [ih]

theorem pairwise_le_insertStr (n : String) :
    ∀ l : List String,
      List.Pairwise (fun a b => strLe a b = true) l →
      List.Pairwise (fun a b => strLe a b = true) (insertStr n l) := by
  intro l
  induction l with
  | nil => intro _; simp [insertStr]
  | cons m ms ih =>
    intro h
    rw [List.pairwise_cons] at h
    simp only [insertStr]
    by_cases hlt : strLt n m = true
    · rw [if_pos hlt]
      rw [List.pairwise_cons]
      constructor
      · intro b hb
        rcases List.mem_cons.mp hb with rfl | hb
        · exact strLe_of_strLt hlt
        · exact strLe_trans (strLe_of_strLt hlt) (h.1 b hb)
      · exact List.pairwise_cons.mpr h
    · rw [if_neg hlt]
      rw [List.pairwise_cons]
      constructor
      · intro b hb
        rcases (mem_insertStr n b ms).mp hb with rfl | hb
        · simp only [strLe, strLt, Bool.not_eq_true] at hlt ⊢
          rw [hlt]
          rfl
        · exact h.1 b hb
      · exact ih h.2

theorem pairwise_le_sortStr :
    ∀ l : List String,
      List.Pairwise (fun a b => strLe a b = true) (sortStr l) := by
  intro l
  induction l with
  | nil => simp [sortStr]
  | cons m ms ih => exact pairwise_le_insertStr m (sortStr ms) ih

theorem nodup_insertStr (n : String) :
    ∀ l : List String, n ∉ l → l.Nodup → (insertStr n l).Nodup := by
  intro l
  induction l with
  | nil => intro _ _; simp [insertStr]
  | cons m ms ih =>
    intro hn hd
    rw [List.nodup_cons] at hd
    simp only [insertStr]
    by_cases hlt : strLt n m = true
    · rw [if_pos hlt, List.nodup_cons]
      exact ⟨hn, List.nodup_cons.mpr hd⟩
    · rw [if_neg hlt, List.nodup_cons]
      constructor
      · intro hm
        rcases (mem_insertStr n m ms).mp hm with rfl | hm
        · exact hn (List.mem_cons_self m ms)
        · exact hd.1 hm
      · exact ih (fun hm => hn (List.mem_cons_of_mem m hm)) hd.2

theorem nodup_sortStr :
    ∀ l : List String, l.Nodup → (sortStr l).Nodup := by
  intro l
  induction l with
  | nil => intro _; simp [sortStr]
  | cons m ms ih =>
    intro h
    rw [List.nodup_cons] at h
    exact nodup_insertStr m (sortStr ms)
      (fun hm => h.1 ((mem_sortStr m ms).mp hm)) (ih h.2)

theorem pairwise_lt_sortStr (l : List String) (h : l.Nodup) :
    List.Pairwise (fun a b => strLt a b = true) (sortStr l) := by
  have h1 := pairwise_le_sortStr l
  have h2 : (sortStr l).Nodup := nodup_sortStr l h
  have := List.Pairwise.and h1 h2
  exact this.imp (fun hab => strLt_of_strLe_of_ne hab.1 hab.2)

/-! ## The minimal name and the primary fix-up -/

theorem pymin_le_left (a b : String) : strLe (pymin a b) a = true := by
  unfold pymin
  by_cases h : strLt b a = true
  · rw [if_pos h]
    exact strLe_of_strLt h
  · rw [if_neg h]
    exact strLe_refl a

theorem pymin_le_right (a b : String) : strLe (pymin a b) b = true := by
  unfold pymin
  by_cases h : strLt b a = true
  · rw [if_pos h]
    exact strLe_refl b
  · rw [if_neg h]
    simp only [strLe, strLt, Bool.not_eq_true] at h ⊢
    rw [h]
    rfl

theorem foldl_pymin_attained :
    ∀ (ds : List MonitorConfig) (a : String),
      ds.foldl (fun x d => pymin x d.name) a = a
        ∨ ∃ d ∈ ds, ds.foldl (fun x d => pymin x d.name) a = d.name := by
  intro ds
  induction ds with
  | nil => intro a; exact Or.inl rfl
  | cons d ds ih =>
    intro a
    simp only [List.foldl_cons]
    rcases ih (pymin a d.name) with h | ⟨e, he, hh⟩
    · rw [h]
      unfold pymin
      by_cases hlt : strLt d.name a = true
      · rw [if_pos hlt]
        exact Or.inr ⟨d, List.mem_cons_self d ds, rfl⟩
      · rw [if_neg hlt]
        exact Or.inl rfl
    · exact Or.inr ⟨e, List.mem_cons_of_mem d he, hh⟩

theorem foldl_pymin_le :
    ∀ (ds : List MonitorConfig) (a : String),
      strLe (ds.foldl (fun x d => pymin x d.name) a) a = true
        ∧ ∀ d ∈ ds,
            strLe (ds.foldl (fun x d => pymin x d.name) a) d.name = true := by
  intro ds
  induction ds with
  | nil => intro a; exact ⟨strLe_refl a, by simp⟩
  | cons d ds ih =>
    intro a
    obtain ⟨h1, h2⟩ := ih (pymin a d.name)
    simp only [List.foldl_cons]
    refine ⟨strLe_trans h1 (pymin_le_left a d.name), ?_⟩
    intro e he
    rcases List.mem_cons.mp he with rfl | he
    · exact strLe_trans h1 (pymin_le_right a e.name)
    · exact h2 e he

theorem minNameOf_attained (c : MonitorConfig) (cs : List MonitorConfig) :
    ∃ d ∈ c :: cs, d.name = minNameOf c cs := by
  unfold minNameOf
  rcases foldl_pymin_attained cs c.name with h | ⟨d, hd, hh⟩
  · exact ⟨c, List.mem_cons_self c cs, h.symm⟩
  · exact ⟨d, List.mem_cons_of_mem c hd, hh.symm⟩

theorem minNameOf_le (c : MonitorConfig) (cs : List MonitorConfig) :
    ∀ d ∈ c :: cs, strLe (minNameOf c cs) d.name = true := by
  intro d hd
  obtain ⟨h1, h2⟩ := foldl_pymin_le cs c.name
  rcases List.mem_cons.mp hd with rfl | hd
  · exact h1
  · exact h2 d hd

theorem markFirst_map_triple (m : String) :
    ∀ cs : List MonitorConfig,
      (markFirst m cs).map (fun c => (c.name, c.x, c.y))
        = cs.map (fun c => (c.name, c.x, c.y)) := by
  intro cs
  induction cs with
  | nil => rfl
  | cons c cs ih =>
    simp only [markFirst]
    by_cases h : c.name = m
    · rw [if_pos h]; rfl
    · rw [if_neg h]
      simp only [List.map_cons, ih]

theorem markFirst_map_name (m : String) :
    ∀ cs : List MonitorConfig,
      (markFirst m cs).map (fun c => c.name) = cs.map (fun c => c.name) := by
  intro cs
  induction cs with
  | nil => rfl
  | cons c cs ih =>
    simp only [markFirst]
    by_cases h : c.name = m
    · rw [if_pos h]; rfl
    · rw [if_neg h]
      simp only [List.map_cons, ih]

theorem markFirst_count (m : String) :
    ∀ cs : List MonitorConfig, countPrimary cs = 0 →
      (∃ c ∈ cs, c.name = m) →
      countPrimary (markFirst m cs) = 1 := by
  intro cs
  induction cs with
  | nil => intro _ h; exact absurd h (by simp)
  | cons c cs ih =>
    intro h0 hm
    have hcp : c.is_primary = false := by
      by_cases hb : c.is_primary = true
      · exfalso
        simp [countPrimary, List.countP_cons, hb] at h0
      · simpa using hb
    have hc0 : countPrimary cs = 0 := by
      simp [countPrimary, List.countP_cons, hcp] at h0
      simpa [countPrimary] using h0
    simp only [markFirst]
    by_cases h : c.name = m
    · rw [if_pos h]
      simp only [countPrimary, List.countP_cons, if_pos rfl]
      unfold countPrimary at hc0
      simp [hc0]
    · rw [if_neg h]
      simp only [countPrimary, List.countP_cons, hcp]
      have hm' : ∃ d ∈ cs, d.name = m := by
        rcases hm with ⟨d, hd, hdm⟩
        rcases List.mem_cons.mp hd with rfl | hd
        · exact absurd hdm h
        · exact ⟨d, hd, hdm⟩
      have := ih hc0 hm'
      unfold countPrimary at this
      simp [this]

theorem markFirst_mem_primary (m : String) :
    ∀ cs : List MonitorConfig, (∃ c ∈ cs, c.name = m) →
      ∃ c, c ∈ markFirst m cs ∧ c.is_primary = true ∧ c.name = m := by
  intro cs
  induction cs with
  | nil => intro h; exact absurd h (by simp)
  | cons c cs ih =>
    intro hm
    simp only [markFirst]
    by_cases h : c.name = m
    · rw [if_pos h]
      exact ⟨{ c with is_primary := true },
        List.mem_cons_self _ _, rfl, h⟩
    · rw [if_neg h]
      have hm' : ∃ d ∈ cs, d.name = m := by
        rcases hm with ⟨d, hd, hdm⟩
        rcases List.mem_cons.mp hd with rfl | hd
        · exact absurd hdm h
        · exact ⟨d, hd, hdm⟩
      obtain ⟨d, hd, h1, h2⟩ := ih hm'
      exact ⟨d, List.mem_cons_of_mem c hd, h1, h2⟩

/-! ## The append phase of reconciliation -/

theorem addNew_eq_buildNews (mons : List MonitorInfo) :
    ∀ (ns : List String) (cs : List MonitorConfig),
      addNew mons cs ns = cs ++ buildNews mons cs ns := by
  intro ns
  induction ns with
  | nil => intro cs; simp [addNew, buildNews]
  | cons n ns ih =>
    intro cs
    simp only [addNew, buildNews]
    rw [ih]
    simp

theorem buildNews_map_name (mons : List MonitorInfo) :
    ∀ (ns : List String) (cs : List MonitorConfig),
      (buildNews mons cs ns).map (fun c => c.name) = ns := by
  intro ns
  induction ns with
  | nil => intro cs; rfl
  | cons n ns ih =>
    intro cs
    simp only [buildNews, List.map_cons, ih]

theorem buildNews_mem_flags (mons : List MonitorInfo) :
    ∀ (ns : List String) (cs : List MonitorConfig),
      ∀ c ∈ buildNews mons cs ns, c.y = 0 ∧ c.is_primary = false := by
  intro ns
  induction ns with
  | nil => intro cs c hc; exact absurd hc (by simp [buildNews])
  | cons n ns ih =>
    intro cs c hc
    simp only [buildNews, List.mem_cons] at hc
    rcases hc with rfl | hc
    · exact ⟨rfl, rfl⟩
    · exact ih _ c hc

theorem buildNews_x (mons : List MonitorInfo) :
    ∀ (ns : List String) (cs : List MonitorConfig) (i : Nat)
      (h : i < (buildNews mons cs ns).length),
      ((buildNews mons cs ns).get ⟨i, h⟩).x
        = xval mons (cs ++ (buildNews mons cs ns).take i) := by
  intro ns
  induction ns with
  | nil => intro cs i h; exact absurd h (by simp [buildNews])
  | cons n ns ih =>
    intro cs i h
    cases i with
    | zero => simp [buildNews]
    | succ i =>
        simp only [buildNews, List.get_cons_succ, List.take_succ_cons]
        rw [List.append_cons cs _ (List.take i _)]
        exact ih (cs ++ [⟨n, xval mons cs, 0, false⟩]) i _

theorem countPrimary_append (a b : List MonitorConfig) :
    countPrimary (a ++ b) = countPrimary a + countPrimary b :=
  List.countP_append _ a b

theorem countPrimary_buildNews (mons : List MonitorInfo)
    (ns : List String) (cs : List MonitorConfig) :
    countPrimary (buildNews mons cs ns) = 0 := by
  unfold countPrimary
  rw [List.countP_eq_zero]
  intro c hc
  have := (buildNews_mem_flags mons ns cs c hc).2
  simp [this]

theorem countPrimary_filter_le (p : MonitorConfig → Bool)
    (cs : List MonitorConfig) :
    countPrimary (cs.filter p) ≤ countPrimary cs := by
  induction cs with
  | nil => simp [countPrimary]
  | cons c cs ih =>
    simp only [List.filter_cons]
    by_cases h : p c = true
    · rw [if_pos h]
      simp only [countPrimary, List.countP_cons] at *
      omega
    · rw [if_neg h]
      simp only [countPrimary, List.countP_cons] at *
      omega

/-! ## The dictionary lookup -/

theorem lookupMon_some_iff (mons : List MonitorInfo) (n : String) :
    (∃ mi, lookupMon mons n = some mi) ↔ n ∈ dictKeys mons := by
  unfold lookupMon dictKeys
  rw [← Option.isSome_iff_exists, List.getLast?_isSome]
  rw [List.mem_dedup, List.mem_map]
  constructor
  · intro h
    have := List.length_pos.mpr h
    cases hf : mons.filter (fun m => m.name == n) with
    | nil => rw [hf] at h; exact absurd rfl h
    | cons m ms =>
        have hm : m ∈ mons.filter (fun m => m.name == n) := by
          rw [hf]; exact List.mem_cons_self m ms
        rw [List.mem_filter] at hm
        exact ⟨m, hm.1, by simpa using hm.2⟩
  · intro ⟨m, hm, hn⟩
    intro hf
    rw [List.filter_eq_nil] at hf
    exact hf m hm (by simp [hn])

/-! ## The primary fix-up -/

theorem syncPrimary_of_any (cs : List MonitorConfig)
    (h : cs.any (fun c => c.is_primary) = true) : syncPrimary cs = cs := by
  unfold syncPrimary
  rw [if_pos h]

theorem syncPrimary_no_primary (c : MonitorConfig) (rest : List MonitorConfig)
    (h : (c :: rest).any (fun d => d.is_primary) = false) :
    syncPrimary (c :: rest) = markFirst (minNameOf c rest) (c :: rest) := by
  unfold syncPrimary
  rw [if_neg (by simp [h])]

theorem contains_iff (l : List String) (x : String) :
    l.contains x = true ↔ x ∈ l := by
  unfold List.contains
  exact List.elem_iff

theorem syncPrimary_map_name (cs : List MonitorConfig) :
    (syncPrimary cs).map (fun c => c.name) = cs.map (fun c => c.name) := by
  unfold syncPrimary
  by_cases h : cs.any (fun c => c.is_primary) = true
  · rw [if_pos h]
  · rw [if_neg h]
    cases cs with
    | nil => rfl
    | cons c rest => exact markFirst_map_name _ _

/-! ## C6: config names after reconciliation are the active names -/

/-- C6: after `_sync_configs`, the set of connector names in the config
list equals the set of names of the discovered (active) monitors. -/
theorem sync_names_eq_active (mons : List MonitorInfo)
    (cfgs : List MonitorConfig) :
    ∀ n, n ∈ (sync_configs mons cfgs).map (fun c => c.name)
      ↔ n ∈ dictKeys mons := by
  intro n
  unfold sync_configs
  rw [syncPrimary_map_name]
  unfold preSync
  rw [addNew_eq_buildNews, List.map_append, buildNews_map_name,
    List.mem_append]
  unfold keptOf newNamesOf
  rw [mem_sortStr, List.mem_filter]
  constructor
  · rintro (hm | ⟨hk, _⟩)
    · obtain ⟨c, hc, rfl⟩ := List.mem_map.mp hm
      exact (contains_iff _ _).mp (List.mem_filter.mp hc).2
    · exact hk
  · intro hk
    by_cases hm : n ∈ cfgs.map (fun c => c.name)
    · left
      obtain ⟨c, hc, rfl⟩ := List.mem_map.mp hm
      exact List.mem_map_of_mem _
        (List.mem_filter.mpr ⟨hc, (contains_iff _ _).mpr hk⟩)
    · right
      refine ⟨hk, ?_⟩
      simp only [Bool.not_eq_true']
      by_contra hc
      rw [Bool.not_eq_false] at hc
      exact hm ((contains_iff _ _).mp hc)

/-! ## C1: how many primaries reconciliation guarantees -/

theorem countPrimary_preSync (mons : List MonitorInfo)
    (cfgs : List MonitorConfig) :
    countPrimary (preSync mons cfgs) = countPrimary (keptOf mons cfgs) := by
  unfold preSync
  rw [addNew_eq_buildNews, countPrimary_append, countPrimary_buildNews]
  omega

/-- C1 (counterexample): when two loaded entries are both marked primary and
both monitors are still active, reconciliation keeps both flags — the
resulting non-empty list has two primaries, not exactly one. -/
theorem sync_two_primaries_counterexample :
    sync_configs [monA, monB] [⟨"A", 0, 0, true⟩, ⟨"B", 0, 0, true⟩] ≠ []
      ∧ countPrimary (sync_configs [monA, monB]
          [⟨"A", 0, 0, true⟩, ⟨"B", 0, 0, true⟩]) = 2 := by
  refine ⟨by decide, by decide⟩

/-- C1 (amended): after reconciliation a non-empty config list has at least
one primary; and when the loaded list carried at most one primary (the case
for any list the program itself wrote), it has exactly one. -/
theorem sync_primary_count (mons : List MonitorInfo)
    (cfgs : List MonitorConfig) :
    (sync_configs mons cfgs ≠ []
        → 1 ≤ countPrimary (sync_configs mons cfgs))
      ∧ (countPrimary cfgs ≤ 1 → sync_configs mons cfgs ≠ []
        → countPrimary (sync_configs mons cfgs) = 1) := by
  have hpre := countPrimary_preSync mons cfgs
  have hkept : countPrimary (keptOf mons cfgs) ≤ countPrimary cfgs :=
    countPrimary_filter_le _ cfgs
  by_cases hany : (preSync mons cfgs).any (fun c => c.is_primary) = true
  · have hs : sync_configs mons cfgs = preSync mons cfgs :=
      syncPrimary_of_any _ hany
    have hpos : 1 ≤ countPrimary (preSync mons cfgs) := by
      obtain ⟨c, hc, hcp⟩ := List.any_eq_true.mp hany
      unfold countPrimary
      exact List.countP_pos.mpr ⟨c, hc, hcp⟩
    constructor
    · intro _; rw [hs]; exact hpos
    · intro hle _
      rw [hs]
      omega
  · have hany' : (preSync mons cfgs).any (fun c => c.is_primary) = false := by
      simpa using hany
    cases hps : preSync mons cfgs with
    | nil =>
        have hs : sync_configs mons cfgs = [] := by
          unfold sync_configs
          rw [hps]
          simp [syncPrimary]
        constructor
        · intro hne; exact absurd hs hne
        · intro _ hne; exact absurd hs hne
    | cons c rest =>
        have hsync : sync_configs mons cfgs
            = markFirst (minNameOf c rest) (c :: rest) := by
          unfold sync_configs
          rw [hps]
          exact syncPrimary_no_primary c rest (by rw [← hps]; exact hany')
        have hcount0 : countPrimary (c :: rest) = 0 := by
          rw [← hps]
          unfold countPrimary
          rw [List.countP_eq_zero]
          exact List.any_eq_false.mp hany'
        obtain ⟨d, hd, hdn⟩ := minNameOf_attained c rest
        have h1 : countPrimary (markFirst (minNameOf c rest) (c :: rest)) = 1 :=
          markFirst_count _ _ hcount0 ⟨d, hd, hdn⟩
        constructor
        · intro _; rw [hsync, h1]
        · intro _ _; rw [hsync]; exact h1

/-- A concrete run of the amended C1 statement: one active monitor, empty
store, exactly one primary afterwards. -/
theorem sync_primary_count_witness :
    countPrimary (sync_configs [monA, monB] []) = 1 :=
  (sync_primary_count [monA, monB] []).2 (by decide) (by decide)

/-! ## C8: what the append phase produces, entry by entry -/

theorem keptOf_name_mem_keys (mons : List MonitorInfo)
    (cfgs : List MonitorConfig) :
    ∀ c ∈ keptOf mons cfgs, c.name ∈ dictKeys mons := by
  intro c hc
  unfold keptOf at hc
  exact (contains_iff _ _).mp (List.mem_filter.mp hc).2

theorem newNamesOf_subset_keys (mons : List MonitorInfo)
    (cfgs : List MonitorConfig) :
    ∀ n ∈ newNamesOf mons cfgs, n ∈ dictKeys mons := by
  intro n hn
  unfold newNamesOf at hn
  rw [mem_sortStr] at hn
  exact (List.mem_filter.mp hn).1

theorem buildNews_name_mem (mons : List MonitorInfo) (ns : List String)
    (cs : List MonitorConfig) :
    ∀ c ∈ buildNews mons cs ns, c.name ∈ ns := by
  intro c hc
  have := List.mem_map_of_mem (fun c => c.name) hc
  rwa [buildNews_map_name] at this

/-- C8: reconciliation appends the new connectors after the kept entries;
their names are exactly the active names missing from the store, in
strictly increasing (alphabetical) order; each appended entry has `y = 0`
and is not primary; its `x` is 0 when it is inserted into an empty list and
otherwise the `x` of the entry that is last at the moment of insertion plus
that entry's monitor's scaled width; and when no entry is primary after the
append, the alphabetically-first entry is promoted, changing nothing else. -/
theorem sync_appends_new_spec (mons : List MonitorInfo)
    (cfgs : List MonitorConfig) :
    (preSync mons cfgs
        = keptOf mons cfgs
          ++ (preSync mons cfgs).drop (keptOf mons cfgs).length)
    ∧ List.Pairwise (fun a b => strLt a b = true)
        (((preSync mons cfgs).drop (keptOf mons cfgs).length).map
          (fun c => c.name))
    ∧ (∀ n, (n ∈ ((preSync mons cfgs).drop (keptOf mons cfgs).length).map
            (fun c => c.name))
          ↔ (n ∈ dictKeys mons ∧ ¬ n ∈ cfgs.map (fun c => c.name)))
    ∧ (∀ i c, ((preSync mons cfgs).drop (keptOf mons cfgs).length)[i]?
            = some c →
          c.y = 0 ∧ c.is_primary = false
          ∧ ((keptOf mons cfgs
              ++ ((preSync mons cfgs).drop (keptOf mons cfgs).length).take i)
                = [] → c.x = 0)
          ∧ (∀ last, (keptOf mons cfgs
              ++ ((preSync mons cfgs).drop (keptOf mons cfgs).length).take i).getLast?
                = some last →
              ∃ mi, lookupMon mons last.name = some mi
                ∧ c.x = last.x + scaled_width mi))
    ∧ ((preSync mons cfgs).any (fun c => c.is_primary) = false
        → preSync mons cfgs ≠ []
        → ((sync_configs mons cfgs).map (fun c => (c.name, c.x, c.y))
              = (preSync mons cfgs).map (fun c => (c.name, c.x, c.y))
          ∧ ∃ c, c ∈ sync_configs mons cfgs ∧ c.is_primary = true
              ∧ ∀ d ∈ sync_configs mons cfgs,
                  strLe c.name d.name = true)) := by
  have hpre : preSync mons cfgs
      = keptOf mons cfgs
        ++ buildNews mons (keptOf mons cfgs) (newNamesOf mons cfgs) := by
    unfold preSync
    exact addNew_eq_buildNews mons _ _
  have hdrop : (preSync mons cfgs).drop (keptOf mons cfgs).length
      = buildNews mons (keptOf mons cfgs) (newNamesOf mons cfgs) := by
    rw [hpre]
    exact List.drop_left _ _
  refine ⟨?_, ?_, ?_, ?_, ?_⟩
  · rw [hdrop]
    exact hpre
  · rw [hdrop, buildNews_map_name]
    unfold newNamesOf
    exact pairwise_lt_sortStr _ ((List.nodup_dedup _).filter _)
  · intro n
    rw [hdrop, buildNews_map_name]
    unfold newNamesOf
    rw [mem_sortStr, List.mem_filter]
    constructor
    · rintro ⟨hk, hc⟩
      refine ⟨hk, ?_⟩
      intro hm
      rw [Bool.not_eq_true'] at hc
      rw [← contains_iff] at hm
      rw [hm] at hc
      exact nomatch hc
    · rintro ⟨hk, hm⟩
      refine ⟨hk, ?_⟩
      rw [Bool.not_eq_true']
      by_contra hc
      rw [Bool.not_eq_false] at hc
      exact hm ((contains_iff _ _).mp hc)
  · intro i c hc
    rw [hdrop] at hc
    obtain ⟨h, hcc⟩ := List.getElem?_eq_some.mp hc
    have hmem : c ∈ buildNews mons (keptOf mons cfgs) (newNamesOf mons cfgs) := by
      rw [← hcc]
      exact List.getElem_mem h
    have hflags := buildNews_mem_flags mons _ _ c hmem
    have hx : c.x = xval mons (keptOf mons cfgs
        ++ (buildNews mons (keptOf mons cfgs) (newNamesOf mons cfgs)).take i) := by
      rw [← hcc, ← List.get_eq_getElem _ ⟨i, h⟩]
      exact buildNews_x mons _ _ i h
    refine ⟨hflags.1, hflags.2, ?_, ?_⟩
    · intro hemp
      rw [hdrop] at hemp
      rw [hx, hemp]
      rfl
    · intro last hlast
      rw [hdrop] at hlast
      have hlmem : last ∈ keptOf mons cfgs
          ++ (buildNews mons (keptOf mons cfgs) (newNamesOf mons cfgs)).take i :=
        List.mem_of_mem_getLast? hlast
      have hkeys : last.name ∈ dictKeys mons := by
        rcases List.mem_append.mp hlmem with hl | hl
        · exact keptOf_name_mem_keys mons cfgs last hl
        · exact newNamesOf_subset_keys mons cfgs last.name
            (buildNews_name_mem mons _ _ last (List.take_subset i _ hl))
      obtain ⟨mi, hmi⟩ := (lookupMon_some_iff mons last.name).mpr hkeys
      refine ⟨mi, hmi, ?_⟩
      rw [hx]
      simp [xval, hlast, hmi]
  · intro hany hne
    cases hps : preSync mons cfgs with
    | nil => exact absurd hps hne
    | cons c rest =>
        have hsync : sync_configs mons cfgs
            = markFirst (minNameOf c rest) (c :: rest) := by
          unfold sync_configs
          rw [hps]
          exact syncPrimary_no_primary c rest (by rw [← hps]; exact hany)
        constructor
        · rw [hsync]
          exact markFirst_map_triple _ _
        · obtain ⟨d, hd, hdn⟩ := minNameOf_attained c rest
          obtain ⟨e, he, he1, he2⟩ := markFirst_mem_primary _ _ ⟨d, hd, hdn⟩
          refine ⟨e, by rw [hsync]; exact he, he1, ?_⟩
          intro f hf
          rw [hsync] at hf
          have hfn : f.name ∈ (markFirst (minNameOf c rest)
              (c :: rest)).map (fun c => c.name) :=
            List.mem_map_of_mem _ hf
          rw [markFirst_map_name] at hfn
          obtain ⟨g, hg, hgname⟩ := List.mem_map.mp hfn
          rw [he2, ← hgname]
          exact minNameOf_le c rest g hg

/-- A concrete run of C8's placement clause: with monitors B and A active
(A 1920 wide at scale 1) and an empty store, the second appended entry sits
at the first one's `x` plus its scaled width. -/
theorem sync_appends_new_spec_witness :
    ∃ mi, lookupMon [monB, monA] "A" = some mi
      ∧ (1920 : Int) = 0 + scaled_width mi := by
  have h := ((sync_appends_new_spec [monB, monA] []).2.2.2.1) 1
    ⟨"B", 1920, 0, false⟩ (by decide)
  obtain ⟨-, -, -, hlast⟩ := h
  obtain ⟨mi, hmi, hx⟩ := hlast ⟨"A", 0, 0, false⟩ (by decide)
  exact ⟨mi, hmi, hx⟩

/-! ## C7: relative positioning -/

/-- C7: `_position_relative_to_primary` is a no-op when the target is
missing, when there is no primary, when the target is the primary, or when
either monitor is absent from the discovered map; otherwise it updates just
the target entry by the four directional formulas. -/
theorem position_relative_spec (mons : List MonitorInfo)
    (cs : List MonitorConfig) (nm : String) :
    (∀ dir, cs.findIdx? (fun c => c.name == nm) = none
        → position_relative_to_primary mons nm dir cs = cs)
    ∧ (∀ dir, cs.find? (fun c => c.is_primary) = none
        → position_relative_to_primary mons nm dir cs = cs)
    ∧ (∀ dir i p, cs.findIdx? (fun c => c.name == nm) = some i
        → cs.find? (fun c => c.is_primary) = some p
        → (cs.getD i defaultCfg).name = p.name
        → position_relative_to_primary mons nm dir cs = cs)
    ∧ (∀ dir i p, cs.findIdx? (fun c => c.name == nm) = some i
        → cs.find? (fun c => c.is_primary) = some p
        → (cs.getD i defaultCfg).name ≠ p.name
        → (lookupMon mons nm = none ∨ lookupMon mons p.name = none)
        → position_relative_to_primary mons nm dir cs = cs)
    ∧ (∀ i p mon pmon, cs.findIdx? (fun c => c.name == nm) = some i
        → cs.find? (fun c => c.is_primary) = some p
        → (cs.getD i defaultCfg).name ≠ p.name
        → lookupMon mons nm = some mon
        → lookupMon mons p.name = some pmon
        → (position_relative_to_primary mons nm "east" cs
              = cs.set i { cs.getD i defaultCfg with
                  x := p.x + scaled_width pmon, y := p.y }
          ∧ position_relative_to_primary mons nm "west" cs
              = cs.set i { cs.getD i defaultCfg with
                  x := p.x - scaled_width mon, y := p.y }
          ∧ position_relative_to_primary mons nm "north" cs
              = cs.set i { cs.getD i defaultCfg with
                  x := p.x, y := p.y - scaled_height mon }
          ∧ position_relative_to_primary mons nm "south" cs
              = cs.set i { cs.getD i defaultCfg with
                  x := p.x, y := p.y + scaled_height pmon })) := by
  refine ⟨?_, ?_, ?_, ?_, ?_⟩
  · intro dir hf
    simp [position_relative_to_primary, hf]
  · intro dir hp
    cases hf : cs.findIdx? (fun c => c.name == nm) <;>
      simp [position_relative_to_primary, hf, hp]
  · intro dir i p hfi hfp hname
    simp only [List.getD_eq_getElem?_getD] at hname
    simp [position_relative_to_primary, hfi, hfp, hname]
  · intro dir i p hfi hfp hname hlook
    simp only [List.getD_eq_getElem?_getD] at hname
    rcases hlook with hl | hl
    · simp [position_relative_to_primary, hfi, hfp, hname, hl]
    · cases hm : lookupMon mons nm <;>
        simp [position_relative_to_primary, hfi, hfp, hname, hl, hm]
  · intro i p mon pmon hfi hfp hname hm hp
    simp only [List.getD_eq_getElem?_getD] at hname
    refine ⟨?_, ?_, ?_, ?_⟩ <;>
      simp [position_relative_to_primary, hfi, hfp, hname, hm, hp]

/-- Witness for C7: the spec's own example — B placed east of primary A at
(0,0) with A 1920 wide at scale 1 lands at (1920, 0). -/
theorem position_relative_spec_witness :
    position_relative_to_primary [monA, monB] "B" "east"
        [⟨"A", 0, 0, true⟩, ⟨"B", 5, 7, false⟩]
      = [⟨"A", 0, 0, true⟩, ⟨"B", 1920, 0, false⟩] := by
  have h := ((position_relative_spec [monA, monB]
      [⟨"A", 0, 0, true⟩, ⟨"B", 5, 7, false⟩] "B").2.2.2.2
    1 ⟨"A", 0, 0, true⟩ monB monA (by decide) (by decide) (by decide)
    (by decide) (by decide)).1
  rw [h]
  decide

/-! ## C9: reordering -/

theorem findIdx?_aux_bound (p : MonitorConfig → Bool) :
    ∀ (l : List MonitorConfig) (s i : Nat),
      List.findIdx? p l s = some i → s ≤ i ∧ i - s < l.length := by
  intro l
  induction l with
  | nil => intro s i h; exact nomatch h
  | cons a l ih =>
    intro s i h
    rw [List.findIdx?] at h
    by_cases hp : p a = true
    · rw [if_pos hp] at h
      have : s = i := by simpa using h
      subst this
      simp
    · rw [if_neg hp] at h
      have := ih (s + 1) i h
      constructor
      · omega
      · simp only [List.length_cons]
        omega

theorem findIdx?_bound (p : MonitorConfig → Bool) (l : List MonitorConfig)
    (i : Nat) (h : List.findIdx? p l = some i) : i < l.length := by
  have := findIdx?_aux_bound p l 0 i h
  omega

theorem eraseIdx_insertIdx_succ :
    ∀ (i : Nat) (l : List MonitorConfig), i + 1 < l.length →
      (l.eraseIdx i).insertIdx (i + 1) (l.getD i defaultCfg) = swapAdj i l := by
  intro i
  induction i with
  | zero =>
    intro l hl
    match l, hl with
    | a :: b :: t, _ => rfl
  | succ i ih =>
    intro l hl
    match l, hl with
    | a :: t, hl =>
        have ht : i + 1 < t.length := by
          simp only [List.length_cons] at hl
          omega
        show a :: (t.eraseIdx i).insertIdx (i + 1) (t.getD i defaultCfg)
            = a :: swapAdj i t
        rw [ih t ht]

theorem eraseIdx_insertIdx_pred :
    ∀ (i : Nat) (l : List MonitorConfig), 1 ≤ i → i < l.length →
      (l.eraseIdx i).insertIdx (i - 1) (l.getD i defaultCfg)
        = swapAdj (i - 1) l := by
  intro i
  induction i with
  | zero => intro l h1 _; omega
  | succ i ih =>
    intro l _ hl
    cases i with
    | zero =>
        match l, hl with
        | a :: b :: t, _ => rfl
    | succ j =>
        match l, hl with
        | a :: t, hl =>
            have h1 : 1 ≤ j + 1 := by omega
            have ht : j + 1 < t.length := by
              simp only [List.length_cons] at hl
              omega
            show a :: (t.eraseIdx (j + 1)).insertIdx (j + 1 - 1 + 1 - 1)
                (t.getD (j + 1) defaultCfg) = a :: swapAdj (j + 1 - 1) t
            have := ih t h1 ht
            simpa using this

/-- C9: moving the first entry up or the last entry down leaves the list
unchanged; an in-range up or down move swaps the named entry with its
adjacent neighbour and changes nothing else. -/
theorem move_monitor_spec (cs : List MonitorConfig) (nm : String) :
    (cs.findIdx? (fun c => c.name == nm) = some 0
        → move_monitor nm (-1) cs = cs)
    ∧ (cs.findIdx? (fun c => c.name == nm) = some (cs.length - 1)
        → move_monitor nm 1 cs = cs)
    ∧ (∀ i, cs.findIdx? (fun c => c.name == nm) = some i
        → (i + 1 < cs.length → move_monitor nm 1 cs = swapAdj i cs)
          ∧ (1 ≤ i → move_monitor nm (-1) cs = swapAdj (i - 1) cs)) := by
  refine ⟨?_, ?_, ?_⟩
  · intro h
    simp only [move_monitor, h]
    rw [if_neg (by omega)]
  · intro h
    have hb := findIdx?_bound _ cs _ h
    simp only [move_monitor, h]
    rw [if_neg (by omega)]
  · intro i h
    have hb := findIdx?_bound _ cs _ h
    constructor
    · intro hr
      simp only [move_monitor, h]
      rw [if_pos (by constructor <;> omega)]
      have ht : ((i : Int) + 1).toNat = i + 1 := by omega
      rw [ht]
      exact eraseIdx_insertIdx_succ i cs hr
    · intro hr
      simp only [move_monitor, h]
      rw [if_pos (by constructor <;> omega)]
      have ht : ((i : Int) + (-1)).toNat = i - 1 := by omega
      rw [ht]
      exact eraseIdx_insertIdx_pred i cs hr hb

/-- Witness for C9 at a three-element list: moving the middle entry down
swaps it with the last one; moving the first up and the last down are
no-ops. -/
theorem move_monitor_spec_witness :
    move_monitor "B" 1 [⟨"A", 0, 0, true⟩, ⟨"B", 1, 1, false⟩,
        ⟨"C", 2, 2, false⟩]
      = [⟨"A", 0, 0, true⟩, ⟨"C", 2, 2, false⟩, ⟨"B", 1, 1, false⟩]
    ∧ move_monitor "A" (-1) [⟨"A", 0, 0, true⟩, ⟨"B", 1, 1, false⟩]
      = [⟨"A", 0, 0, true⟩, ⟨"B", 1, 1, false⟩]
    ∧ move_monitor "B" 1 [⟨"A", 0, 0, true⟩, ⟨"B", 1, 1, false⟩]
      = [⟨"A", 0, 0, true⟩, ⟨"B", 1, 1, false⟩] := by
  refine ⟨?_, ?_, ?_⟩
  · have h := ((move_monitor_spec [⟨"A", 0, 0, true⟩, ⟨"B", 1, 1, false⟩,
        ⟨"C", 2, 2, false⟩] "B").2.2 1 (by decide)).1 (by decide)
    rw [h]
    decide
  · exact (move_monitor_spec [⟨"A", 0, 0, true⟩, ⟨"B", 1, 1, false⟩]
      "A").1 (by decide)
  · exact (move_monitor_spec [⟨"A", 0, 0, true⟩, ⟨"B", 1, 1, false⟩]
      "B").2.1 (by decide)

end Swaymon
